import Mathlib

/-!
Verification of the `CollatzTree` memoizing sequence cache (`collatz.py`).

The Python class keeps two insertion-ordered dictionaries:
  * `collatz_tree : {n : next(n)}` — the successor map, seeded `{1: 4}`;
  * `paths : {n : [n, next n, ..., 1]}` — the sequence map, seeded `{1: [1]}`.

We embed Python dicts as association lists in insertion order (keys are
unique because every assignment in the source is guarded by a membership
check; `dictInsert` nevertheless models the general overwrite semantics of
a Python dict assignment).  Python integers are `Int`; Lean's `/` and `%`
on `Int` are floor division and floor mod for positive divisors, exactly
Python's `//` and `%`.

The `while n > 1` loops of the source walk the Collatz function, whose
termination is the Collatz conjecture; they are embedded with an explicit
fuel parameter and return `Option`, with `none` for fuel exhaustion (and
for a `KeyError` on a missing dictionary lookup).  A loop whose guard
fails immediately consumes no fuel.

The unused field `steps_to_one` (only written by the dead code path
`_calculate_steps_to_one`, marked "UNNECESSARY" in the source) is omitted
from the state.  Console output is ignored except in `load_list`, where
the reported message is part of the claimed behavior and is returned as a
list of printed lines.
-/

/-- Lookup in an association list: first entry with the given key
(Python dict lookup; keys are in fact unique). -/
def dlookup {α : Type} : List (Int × α) → Int → Option α
  | [], _ => none
  | kv :: rest, k => if kv.1 = k then some kv.2 else dlookup rest k

/-- `k in d` for a Python dict. -/
def hasKey {α : Type} (m : List (Int × α)) (k : Int) : Bool :=
  (dlookup m k).isSome

/-- Python dict assignment `d[k] = v`: overwrite in place if the key is
present, otherwise append (insertion order). -/
def dictInsert {α : Type} (m : List (Int × α)) (k : Int) (v : α) : List (Int × α) :=
  if hasKey m k then m.map (fun kv => if kv.1 = k then (k, v) else kv) else m ++ [(k, v)]

/-- The keys of the association list are pairwise distinct. -/
def keysNodup {α : Type} (m : List (Int × α)) : Prop :=
  (m.map Prod.fst).Nodup

/-- One Collatz step, as computed inline in `add` and `collatz`:
`n // 2` if `n` is even else `3*n + 1`. -/
def collatzNext (n : Int) : Int :=
  if n % 2 = 0 then n / 2 else 3 * n + 1

/-- `CollatzChain n p` : `p` is the full Collatz sequence `[n, next n, ..., 1]`
from `n` down to `1` inclusive. -/
inductive CollatzChain : Int → List Int → Prop where
  | base : CollatzChain 1 [1]
  | step {n : Int} {p : List Int} (h : 1 < n) (hp : CollatzChain (collatzNext n) p) :
      CollatzChain n (n :: p)

/-- The state of a `CollatzTree` object: the successor map and the
sequence map. -/
structure CollatzTree where
  collatz_tree : List (Int × Int)
  paths : List (Int × List Int)
deriving DecidableEq, Repr

/-- `__init__`: successor map seeded `{1: 4}`, sequence map seeded `{1: [1]}`. -/
def initTree : CollatzTree :=
  { collatz_tree := [(1, 4)], paths := [(1, [1])] }

/-- The `while n > 1` loop of `add`: record `n -> next` and advance, breaking
as soon as the advanced value is already a key. -/
def addLoop (t : List (Int × Int)) (n : Int) (fuel : Nat) : Option (List (Int × Int)) :=
  if 1 < n then
    match fuel with
    | 0 => none
    | fuel' + 1 =>
      let nx := collatzNext n
      let t' := dictInsert t n nx
      if hasKey t' nx then some t' else addLoop t' nx fuel'
  else some t

/-- `add(n)`: a no-op if `n` is already a key of the successor map, otherwise
record the chain from `n` until reaching `1` or an existing key. -/
def add (s : CollatzTree) (n : Int) (fuel : Nat) : Option CollatzTree :=
  if hasKey s.collatz_tree n then some s
  else (addLoop s.collatz_tree n fuel).map (fun t => { s with collatz_tree := t })

/-- The forward walk of `fill_path`: starting from the accumulated `[n]`,
follow the successor map; as soon as the next value has a memoized path,
splice that entire path and stop. -/
def walkFrom (t : List (Int × Int)) (p : List (Int × List Int)) (n : Int) (fuel : Nat) :
    Option (List Int) :=
  if 1 < n then
    match fuel with
    | 0 => none
    | fuel' + 1 =>
      match dlookup t n with
      | none => none
      | some nx =>
        match dlookup p nx with
        | some spliced => some (n :: spliced)
        | none => (walkFrom t p nx fuel').map (fun r => n :: r)
  else some [n]

/-- The backfill loop of `fill_path`: for each position of the just-built
path, stop at the first element already memoized, otherwise memoize the
suffix starting there. -/
def backfill (m : List (Int × List Int)) : List Int → List (Int × List Int)
  | [] => m
  | x :: rest => if hasKey m x then m else backfill (dictInsert m x (x :: rest)) rest

/-- `fill_path(n)`: auto-register, no-op if memoized, else walk forward
(splicing any known suffix) and backfill every new prefix number. -/
def fill_path (s : CollatzTree) (n : Int) (fuel : Nat) : Option CollatzTree :=
  match (if hasKey s.collatz_tree n then some s else add s n fuel) with
  | none => none
  | some s1 =>
    if hasKey s1.paths n then some s1
    else
      match walkFrom s1.collatz_tree s1.paths n fuel with
      | none => none
      | some path => some { s1 with paths := backfill s1.paths path }

/-- `get_path(n)`: auto-register and auto-fill, then return the memoized path. -/
def get_path (s : CollatzTree) (n : Int) (fuel : Nat) : Option (CollatzTree × List Int) :=
  match (if hasKey s.collatz_tree n then some s else add s n fuel) with
  | none => none
  | some s1 =>
    match (if hasKey s1.paths n then some s1 else fill_path s1 n fuel) with
    | none => none
    | some s2 => (dlookup s2.paths n).map (fun p => (s2, p))

/-- `fill(n)`: for `i` from `n` down to `2`, `add(i)` if not already a key. -/
def fill (s : CollatzTree) (n : Int) (fuel : Nat) : Option CollatzTree :=
  if 1 < n then
    match (if hasKey s.collatz_tree n then some s else add s n fuel) with
    | none => none
    | some s1 => fill s1 (n - 1) fuel
  else some s
termination_by (n - 1).toNat
decreasing_by omega

/-- The loop of `fill_all_paths` over a snapshot of the successor-map keys
(the successor map is not mutated during the iteration, since every key
iterated is already registered). -/
def fillAllLoop (s : CollatzTree) (keys : List Int) (fuel : Nat) : Option CollatzTree :=
  match keys with
  | [] => some s
  | n :: rest =>
    match (if hasKey s.paths n then some s else fill_path s n fuel) with
    | none => none
    | some s1 => fillAllLoop s1 rest fuel

/-- `fill_all_paths()`: `fill_path(n)` for every successor-map key lacking
a memoized path. -/
def fill_all_paths (s : CollatzTree) (fuel : Nat) : Option CollatzTree :=
  fillAllLoop s (s.collatz_tree.map Prod.fst) fuel

/-- `get_longest_path()`: fill all paths, then sort the `(key, len(path))`
pairs by length descending (Python `sorted` is stable, so ties keep
insertion order), and return the path of the first key. -/
def get_longest_path (s : CollatzTree) (fuel : Nat) : Option (CollatzTree × List Int) :=
  match fill_all_paths s fuel with
  | none => none
  | some s1 =>
    match (s1.paths.map (fun kv => (kv.1, kv.2.length))).mergeSort
        (fun a b => decide (b.2 ≤ a.2)) with
    | [] => none
    | (index, _) :: _ => (dlookup s1.paths index).map (fun p => (s1, p))

/-- `get_steps_to_one(n)`: auto-register and auto-fill, then return
`len(paths[n]) - 1`. -/
def get_steps_to_one (s : CollatzTree) (n : Int) (fuel : Nat) : Option (CollatzTree × Int) :=
  match (if hasKey s.collatz_tree n then some s else add s n fuel) with
  | none => none
  | some s1 =>
    match (if hasKey s1.paths n then some s1 else fill_path s1 n fuel) with
    | none => none
    | some s2 => (dlookup s2.paths n).map (fun p => (s2, (p.length : Int) - 1))

/-- The static method `collatz(n)`: walk the Collatz rule from `n`,
printing each value, down to and including the final value (`1` for
positive input).  The returned list is the trace of printed numbers. -/
def collatz (n : Int) (fuel : Nat) : Option (List Int) :=
  if 1 < n then
    match fuel with
    | 0 => none
    | fuel' + 1 => (collatz (collatzNext n) fuel').map (fun r => n :: r)
  else some [n]

/-- `load_list(filename)`: the file system is abstracted as a partial map
from names to pickled blobs (pairs of the two maps).  A missing blob
prints a message and leaves the state untouched; otherwise both maps are
wholesale replaced.  The second component is the list of printed lines. -/
def load_list (s : CollatzTree) (fs : String → Option (List (Int × Int) × List (Int × List Int)))
    (filename : String) : CollatzTree × List String :=
  match fs filename with
  | none => (s, [filename ++ " does not exist yet."])
  | some blob => ({ collatz_tree := blob.1, paths := blob.2 }, [])

/-- One application of a public core operation (everything except `load`). -/
inductive CoreStep : CollatzTree → CollatzTree → Prop where
  | add_step {s s' : CollatzTree} {n : Int} {fuel : Nat}
      (h : add s n fuel = some s') : CoreStep s s'
  | fill_step {s s' : CollatzTree} {n : Int} {fuel : Nat}
      (h : fill s n fuel = some s') : CoreStep s s'
  | fill_path_step {s s' : CollatzTree} {n : Int} {fuel : Nat}
      (h : fill_path s n fuel = some s') : CoreStep s s'
  | get_path_step {s s' : CollatzTree} {n : Int} {fuel : Nat} {v : List Int}
      (h : get_path s n fuel = some (s', v)) : CoreStep s s'
  | fill_all_step {s s' : CollatzTree} {fuel : Nat}
      (h : fill_all_paths s fuel = some s') : CoreStep s s'
  | longest_step {s s' : CollatzTree} {fuel : Nat} {v : List Int}
      (h : get_longest_path s fuel = some (s', v)) : CoreStep s s'
  | steps_step {s s' : CollatzTree} {n : Int} {fuel : Nat} {k : Int}
      (h : get_steps_to_one s n fuel = some (s', k)) : CoreStep s s'

/-- A state reachable from a fresh cache by the public core operations. -/
def Reachable (s : CollatzTree) : Prop :=
  Relation.ReflTransGen CoreStep initTree s

/-! ### Well-formedness invariants

`TreeWFx t pend` allows entries whose value is the still-unregistered
number `pend` (the loop variable of a running `add`); `pend = 0` is
impossible as a Collatz successor of a key `> 1`, so `TreeWF := TreeWFx t 0`
is the stable invariant.  Likewise `PEntryOK m l` allows the successor
path of an entry to be the pending suffix `l` that a running `backfill`
has not stored yet; `PathsWF := PathsWFx m []` is the stable invariant. -/

def TreeEntryOK (t : List (Int × Int)) (pend : Int) (kv : Int × Int) : Prop :=
  (kv.1 = 1 ∧ kv.2 = 4) ∨
  (1 < kv.1 ∧ kv.2 = collatzNext kv.1 ∧ (hasKey t kv.2 = true ∨ kv.2 = pend))

def TreeWFx (t : List (Int × Int)) (pend : Int) : Prop :=
  keysNodup t ∧ dlookup t 1 = some 4 ∧ ∀ kv ∈ t, TreeEntryOK t pend kv

def TreeWF (t : List (Int × Int)) : Prop := TreeWFx t 0

def PEntryOK (m : List (Int × List Int)) (l : List Int) (kv : Int × List Int) : Prop :=
  (kv.1 < 1 ∧ kv.2 = [kv.1]) ∨
  (kv.1 = 1 ∧ kv.2 = [1]) ∨
  (1 < kv.1 ∧ kv.2.head? = some kv.1 ∧
    (dlookup m (collatzNext kv.1) = some kv.2.tail ∨
      (l.head? = some (collatzNext kv.1) ∧ kv.2.tail = l)))

def PathsWFx (m : List (Int × List Int)) (l : List Int) : Prop :=
  keysNodup m ∧ dlookup m 1 = some [1] ∧ ∀ kv ∈ m, PEntryOK m l kv

def PathsWF (m : List (Int × List Int)) : Prop := PathsWFx m []

def WF (s : CollatzTree) : Prop := TreeWF s.collatz_tree ∧ PathsWF s.paths

instance (t : List (Int × Int)) (pend : Int) : Decidable (TreeWFx t pend) := by
  unfold TreeWFx TreeEntryOK keysNodup
  infer_instance

instance (m : List (Int × List Int)) (l : List Int) : Decidable (PathsWFx m l) := by
  unfold PathsWFx PEntryOK keysNodup
  infer_instance

instance (s : CollatzTree) : Decidable (WF s) := by
  unfold WF TreeWF PathsWF
  infer_instance

/-! ### `fill` is the fold of `add` over the descending range down to 1

The source loop stops at 2, but `add(1)` is unconditionally a no-op (its
`while n > 1` guard fails immediately), so extending the range to include
1 is observationally identical. -/

/-- The descending list `[n, n-1, ..., 1]` (empty for `n < 1`). -/
def descRange (n : Int) : List Int :=
  if 1 ≤ n then n :: descRange (n - 1) else []
termination_by n.toNat
decreasing_by omega

/-- Calling `add` (register) in order on each element of a list. -/
def registerSeq (s : CollatzTree) : List Int → Nat → Option CollatzTree
  | [], _ => some s
  | i :: rest, fuel =>
    match add s i fuel with
    | none => none
    | some s1 => registerSeq s1 rest fuel

/-- The concrete state after `fill_path(2)` on a fresh cache. -/
def w1State : CollatzTree :=
  { collatz_tree := [(1, 4), (2, 1)], paths := [(1, [1]), (2, [2, 1])] }

/-- The concrete state after `add(6)` on a fresh cache. -/
def s6add : CollatzTree :=
  { collatz_tree := [(1, 4), (6, 3), (3, 10), (10, 5), (5, 16), (16, 8), (8, 4),
      (4, 2), (2, 1)],
    paths := [(1, [1])] }

/-- The concrete state after `get_path(6)` on a fresh cache. -/
def s6State : CollatzTree :=
  { collatz_tree := [(1, 4), (6, 3), (3, 10), (10, 5), (5, 16), (16, 8), (8, 4),
      (4, 2), (2, 1)],
    paths := [(1, [1]), (6, [6, 3, 10, 5, 16, 8, 4, 2, 1]),
      (3, [3, 10, 5, 16, 8, 4, 2, 1]), (10, [10, 5, 16, 8, 4, 2, 1]),
      (5, [5, 16, 8, 4, 2, 1]), (16, [16, 8, 4, 2, 1]), (8, [8, 4, 2, 1]),
      (4, [4, 2, 1]), (2, [2, 1])] }

/-- The concrete state after `add(2)` on a fresh cache. -/
def w2aState : CollatzTree :=
  { collatz_tree := [(1, 4), (2, 1)], paths := [(1, [1])] }

/-- The concrete state after `get_path(0)` on a fresh cache. -/
def zState : CollatzTree :=
  { collatz_tree := [(1, 4)], paths := [(1, [1]), (0, [0])] }

/-- A file system with no persisted blobs. -/
def emptyFS : String → Option (List (Int × Int) × List (Int × List Int)) :=
  fun _ => none

/-! ### Theorems -/

/-! ### Association-list lemmas -/

theorem hasKey_iff {α : Type} {m : List (Int × α)} {k : Int} :
    hasKey m k = true ↔ ∃ v, dlookup m k = some v := by
  simp [hasKey, Option.isSome_iff_exists]

theorem hasKey_false_iff {α : Type} {m : List (Int × α)} {k : Int} :
    hasKey m k = false ↔ dlookup m k = none := by
  rw [hasKey]
  cases dlookup m k <;> simp

theorem dlookup_mem {α : Type} {m : List (Int × α)} {k : Int} {v : α}
    (h : dlookup m k = some v) : (k, v) ∈ m := by
  induction m with
  | nil => simp [dlookup] at h
  | cons kv rest ih =>
    rw [dlookup] at h
    by_cases hk : kv.1 = k
    · rw [if_pos hk] at h
      cases kv with
      | mk a b =>
        simp only [Option.some.injEq] at h
        simp only at hk
        subst hk
        subst h
        exact List.mem_cons_self _ _
    · rw [if_neg hk] at h
      exact List.mem_cons_of_mem _ (ih h)

theorem hasKey_of_mem {α : Type} {m : List (Int × α)} {k : Int} {v : α}
    (h : (k, v) ∈ m) : hasKey m k = true := by
  induction m with
  | nil => simp at h
  | cons kv rest ih =>
    rcases List.mem_cons.mp h with h1 | h2
    · simp [hasKey, dlookup, ← h1]
    · by_cases hk : kv.1 = k
      · simp [hasKey, dlookup, hk]
      · simpa [hasKey, dlookup, hk] using ih h2

theorem dlookup_append_left {α : Type} {m e : List (Int × α)} {k : Int}
    (h : hasKey m k = true) : dlookup (m ++ e) k = dlookup m k := by
  induction m with
  | nil => simp [hasKey, dlookup] at h
  | cons kv rest ih =>
    by_cases hk : kv.1 = k
    · simp [dlookup, hk]
    · rw [List.cons_append, dlookup, if_neg hk, dlookup, if_neg hk]
      exact ih (by simpa [hasKey, dlookup, hk] using h)

theorem dlookup_append_right {α : Type} {m e : List (Int × α)} {k : Int}
    (h : hasKey m k = false) : dlookup (m ++ e) k = dlookup e k := by
  induction m with
  | nil => simp
  | cons kv rest ih =>
    by_cases hk : kv.1 = k
    · simp [hasKey, dlookup, hk] at h
    · rw [List.cons_append, dlookup, if_neg hk]
      exact ih (by simpa [hasKey, dlookup, hk] using h)

theorem hasKey_append {α : Type} {m e : List (Int × α)} {k : Int} :
    hasKey (m ++ e) k = (hasKey m k || hasKey e k) := by
  by_cases h : hasKey m k = true
  · rw [h, Bool.true_or, hasKey, dlookup_append_left h]
    exact h
  · have h' : hasKey m k = false := by simpa using h
    rw [h', Bool.false_or, hasKey, dlookup_append_right h']
    rfl

theorem hasKey_append_left {α : Type} {m e : List (Int × α)} {k : Int}
    (h : hasKey m k = true) : hasKey (m ++ e) k = true := by
  simp [hasKey_append, h]

theorem dictInsert_new {α : Type} {m : List (Int × α)} {k : Int} {v : α}
    (h : hasKey m k = false) : dictInsert m k v = m ++ [(k, v)] := by
  simp [dictInsert, h]

theorem dlookup_singleton {α : Type} {k : Int} {v : α} :
    dlookup [(k, v)] k = some v := by
  simp [dlookup]

theorem dlookup_append_self {α : Type} {m : List (Int × α)} {k : Int} {v : α}
    (h : hasKey m k = false) : dlookup (m ++ [(k, v)]) k = some v := by
  rw [dlookup_append_right h]; exact dlookup_singleton

theorem keysNodup_append {α : Type} {m : List (Int × α)} {k : Int} {v : α}
    (hn : keysNodup m) (h : hasKey m k = false) : keysNodup (m ++ [(k, v)]) := by
  unfold keysNodup at hn ⊢
  rw [List.map_append]
  have hm : ∀ x : α, (k, x) ∉ m := fun x hx => by simp [hasKey_of_mem hx] at h
  simp [List.nodup_append, hn, hm]

theorem dlookup_eq_of_mem_nodup {α : Type} {m : List (Int × α)} {k : Int} {v : α}
    (hn : keysNodup m) (h : (k, v) ∈ m) : dlookup m k = some v := by
  induction m with
  | nil => simp at h
  | cons kv rest ih =>
    have hn' : keysNodup rest := by
      unfold keysNodup at hn ⊢
      simpa using (List.nodup_cons.mp (by simpa using hn)).2
    rcases List.mem_cons.mp h with h1 | h2
    · simp [dlookup, ← h1]
    · by_cases hk : kv.1 = k
      · exfalso
        have : kv.1 ∉ rest.map Prod.fst := by
          unfold keysNodup at hn
          exact (List.nodup_cons.mp (by simpa using hn)).1
        exact this (by
          rw [hk]
          exact List.mem_map.mpr ⟨(k, v), h2, rfl⟩)
      · rw [dlookup, if_neg hk]
        exact ih hn' h2

/-! ### Collatz chain lemmas -/

theorem collatzNext_pos {n : Int} (h : 1 < n) : 1 ≤ collatzNext n := by
  unfold collatzNext
  by_cases he : n % 2 = 0 <;> simp [he] <;> omega

theorem chain_ne_nil {n : Int} {p : List Int} (h : CollatzChain n p) : p ≠ [] := by
  cases h <;> simp

theorem chain_head {n : Int} {p : List Int} (h : CollatzChain n p) : p.head? = some n := by
  cases h <;> rfl

theorem chain_pos {n : Int} {p : List Int} (h : CollatzChain n p) : 1 ≤ n := by
  cases h with
  | base => omega
  | step h1 _ => omega

theorem chain_last {n : Int} {p : List Int} (h : CollatzChain n p) :
    p.getLast? = some 1 := by
  induction h with
  | base => rfl
  | step h1 hp ih =>
    rename_i m q
    rw [List.getLast?_cons, ih]
    cases q with
    | nil => exact absurd rfl (chain_ne_nil hp)
    | cons a r => simp_all

theorem chain_det {n : Int} {p q : List Int}
    (hp : CollatzChain n p) (hq : CollatzChain n q) : p = q := by
  induction hp generalizing q with
  | base =>
    cases hq with
    | base => rfl
    | step h1 _ => omega
  | step h1 _ ih =>
    cases hq with
    | base => omega
    | step h2 hq' => rw [ih hq']

theorem treeWF_hasKey_one {t : List (Int × Int)} (h : TreeWF t) : hasKey t 1 = true :=
  hasKey_iff.mpr ⟨4, h.2.1⟩

theorem pathsWF_hasKey_one {m : List (Int × List Int)} (h : PathsWFx m l) :
    hasKey m 1 = true :=
  hasKey_iff.mpr ⟨[1], h.2.1⟩

theorem treeWF_key_pos {t : List (Int × Int)} (h : TreeWF t) {k : Int}
    (hk : hasKey t k = true) : 1 ≤ k := by
  rcases hasKey_iff.mp hk with ⟨v, hv⟩
  rcases h.2.2 _ (dlookup_mem hv) with ⟨h1, _⟩ | ⟨h1, _⟩ <;> omega

theorem treeWF_entry {t : List (Int × Int)} (h : TreeWF t) {k v : Int}
    (hv : dlookup t k = some v) (hk : k ≠ 1) :
    1 < k ∧ v = collatzNext k ∧ hasKey t v = true := by
  have hE : (k = 1 ∧ v = 4) ∨
      (1 < k ∧ v = collatzNext k ∧ (hasKey t v = true ∨ v = 0)) :=
    h.2.2 _ (dlookup_mem hv)
  rcases hE with ⟨h1, _⟩ | ⟨h1, h2, h3 | h3⟩
  · exact absurd h1 hk
  · exact ⟨h1, h2, h3⟩
  · exfalso
    have := collatzNext_pos (n := k) h1
    omega

theorem treeWFx_weaken {t : List (Int × Int)} (h : TreeWF t) (pend : Int) :
    TreeWFx t pend := by
  refine ⟨h.1, h.2.1, fun kv hkv => ?_⟩
  rcases h.2.2 kv hkv with h1 | ⟨h1, h2, h3 | h3⟩
  · exact Or.inl h1
  · exact Or.inr ⟨h1, h2, Or.inl h3⟩
  · exfalso
    have := collatzNext_pos (n := kv.1) h1
    omega

theorem pEntryOK_mono_append {m e : List (Int × List Int)} {l : List Int}
    {kv : Int × List Int} (h : PEntryOK m l kv) : PEntryOK (m ++ e) l kv := by
  rcases h with h1 | h1 | ⟨h1, h2, h3 | h3⟩
  · exact Or.inl h1
  · exact Or.inr (Or.inl h1)
  · refine Or.inr (Or.inr ⟨h1, h2, Or.inl ?_⟩)
    rw [dlookup_append_left (hasKey_iff.mpr ⟨_, h3⟩)]
    exact h3
  · exact Or.inr (Or.inr ⟨h1, h2, Or.inr h3⟩)

theorem pathsWFx_weaken {m : List (Int × List Int)} (h : PathsWF m) (l : List Int) :
    PathsWFx m l := by
  refine ⟨h.1, h.2.1, fun kv hkv => ?_⟩
  rcases h.2.2 kv hkv with h1 | h1 | ⟨h1, h2, h3 | h3⟩
  · exact Or.inl h1
  · exact Or.inr (Or.inl h1)
  · exact Or.inr (Or.inr ⟨h1, h2, Or.inl h3⟩)
  · simp at h3

/-- Every entry of a sequence map satisfying `PathsWFx m l` (where the
pending suffix `l` is empty or itself a chain) whose key is `≥ 1` stores
the genuine Collatz chain of its key. -/
theorem entry_chain {m : List (Int × List Int)} {l : List Int}
    (hW : PathsWFx m l) (hl : l = [] ∨ ∃ x, CollatzChain x l) :
    ∀ k p, (k, p) ∈ m → 1 ≤ k → CollatzChain k p := by
  suffices H : ∀ N k p, p.length ≤ N → (k, p) ∈ m → 1 ≤ k → CollatzChain k p by
    intro k p hmem hk
    exact H p.length k p le_rfl hmem hk
  intro N
  induction N with
  | zero =>
    intro k p hlen hmem hk
    have hE : (k < 1 ∧ p = [k]) ∨ (k = 1 ∧ p = [1]) ∨
        (1 < k ∧ p.head? = some k ∧ _) := hW.2.2 _ hmem
    rcases hE with ⟨_, h2⟩ | ⟨_, h2⟩ | ⟨_, h2, _⟩ <;>
      [skip; skip; cases p] <;> simp_all
  | succ N ih =>
    intro k p hlen hmem hk
    have hE : (k < 1 ∧ p = [k]) ∨ (k = 1 ∧ p = [1]) ∨
        (1 < k ∧ p.head? = some k ∧
          (dlookup m (collatzNext k) = some p.tail ∨
            (l.head? = some (collatzNext k) ∧ p.tail = l))) := hW.2.2 _ hmem
    rcases hE with ⟨h1, _⟩ | ⟨h1, h2⟩ | ⟨h1, h2, h3 | h3⟩
    · omega
    · subst h1
      rw [h2]
      exact CollatzChain.base
    · -- successor path already stored in `m`
      have hmem' := dlookup_mem h3
      have hnx : 1 ≤ collatzNext k := collatzNext_pos h1
      cases p with
      | nil => simp at h2
      | cons a q =>
        simp only [List.head?_cons, Option.some.injEq] at h2
        subst h2
        simp only [List.tail_cons] at hmem'
        simp only [List.length_cons, Nat.add_le_add_iff_right] at hlen
        exact CollatzChain.step h1 (ih _ _ hlen hmem' hnx)
    · -- successor path is the pending suffix `l`
      rcases hl with rfl | ⟨x, hx⟩
      · simp at h3
      · have hhead : l.head? = some x := chain_head hx
        rw [h3.1] at hhead
        cases p with
        | nil => simp at h2
        | cons a q =>
          simp only [List.head?_cons, Option.some.injEq] at h2
          subst h2
          simp only [List.tail_cons] at h3
          rw [h3.2]
          refine CollatzChain.step h1 ?_
          have hxeq : x = collatzNext a := by simpa using hhead.symm
          rwa [hxeq] at hx

theorem pathsWF_lookup_chain {m : List (Int × List Int)} (hW : PathsWF m)
    {k : Int} {p : List Int} (h : dlookup m k = some p) (hk : 1 ≤ k) :
    CollatzChain k p :=
  entry_chain hW (Or.inl rfl) k p (dlookup_mem h) hk

theorem pathsWF_lookup_junk {m : List (Int × List Int)} (hW : PathsWF m)
    {k : Int} {p : List Int} (h : dlookup m k = some p) (hk : k < 1) :
    p = [k] := by
  have hE : (k < 1 ∧ p = [k]) ∨ (k = 1 ∧ p = [1]) ∨ (1 < k ∧ _ ∧ _) :=
    hW.2.2 _ (dlookup_mem h)
  rcases hE with ⟨_, h2⟩ | ⟨h1, _⟩ | ⟨h1, _⟩
  · exact h2
  · omega
  · omega

/-! ### The forward walk produces the genuine Collatz chain -/

theorem walk_chain {t : List (Int × Int)} {m : List (Int × List Int)}
    (hT : TreeWF t) (hP : PathsWF m) :
    ∀ fuel n path, 1 < n → walkFrom t m n fuel = some path → CollatzChain n path := by
  intro fuel
  induction fuel with
  | zero =>
    intro n path hn hw
    rw [walkFrom, if_pos hn] at hw
    simp at hw
  | succ f ih =>
    intro n path hn hw
    rw [walkFrom, if_pos hn] at hw
    cases hlt : dlookup t n with
    | none => rw [hlt] at hw; simp at hw
    | some nx =>
      rw [hlt] at hw
      obtain ⟨h1, h2, h3⟩ := treeWF_entry hT hlt (by omega)
      subst h2
      cases hlp : dlookup m (collatzNext n) with
      | some spliced =>
        simp only [hlp] at hw
        have hc : CollatzChain (collatzNext n) spliced :=
          pathsWF_lookup_chain hP hlp (collatzNext_pos hn)
        have hpath : path = n :: spliced := by simpa using hw.symm
        rw [hpath]
        exact CollatzChain.step hn hc
      | none =>
        simp only [hlp] at hw
        rcases Option.map_eq_some'.mp hw with ⟨r, hr, hpath⟩
        have hnx1 : 1 < collatzNext n := by
          have hge := collatzNext_pos hn
          rcases eq_or_lt_of_le hge with heq | hlt1
          · exfalso
            rw [← heq] at hlp
            rw [hP.2.1] at hlp
            exact Option.noConfusion hlp
          · exact hlt1
        rw [← hpath]
        exact CollatzChain.step hn (ih _ _ hnx1 hr)

/-! ### The `add` loop -/

theorem addLoop_spec :
    ∀ fuel (t : List (Int × Int)) (n : Int) (t' : List (Int × Int)),
      TreeWFx t n → 1 < n → hasKey t n = false → addLoop t n fuel = some t' →
      TreeWF t' ∧ (∃ e, t' = t ++ e) ∧ hasKey t' n = true := by
  intro fuel
  induction fuel with
  | zero =>
    intro t n t' _ hn _ h
    rw [addLoop, if_pos hn] at h
    simp at h
  | succ f ih =>
    intro t n t' hW hn hk h
    rw [addLoop, if_pos hn] at h
    simp only at h
    rw [dictInsert_new hk] at h
    set nx := collatzNext n with hnx
    set t1 := t ++ [(n, nx)] with ht1
    have hmem1 : (n, nx) ∈ t1 := by simp [ht1]
    have hkey1 : hasKey t1 n = true := hasKey_of_mem hmem1
    have hnodup1 : keysNodup t1 := keysNodup_append hW.1 hk
    have hone1 : dlookup t1 1 = some 4 := by
      rw [ht1, dlookup_append_left (hasKey_iff.mpr ⟨4, hW.2.1⟩)]
      exact hW.2.1
    have hentries : ∀ kv ∈ t, TreeEntryOK t1 0 kv ∧ TreeEntryOK t1 nx kv := by
      intro kv hkv
      have hE : (kv.1 = 1 ∧ kv.2 = 4) ∨
          (1 < kv.1 ∧ kv.2 = collatzNext kv.1 ∧ (hasKey t kv.2 = true ∨ kv.2 = n)) :=
        hW.2.2 kv hkv
      rcases hE with h1 | ⟨h1, h2, h3 | h3⟩
      · exact ⟨Or.inl h1, Or.inl h1⟩
      · have : hasKey t1 kv.2 = true := by rw [ht1]; exact hasKey_append_left h3
        exact ⟨Or.inr ⟨h1, h2, Or.inl this⟩, Or.inr ⟨h1, h2, Or.inl this⟩⟩
      · have : hasKey t1 kv.2 = true := by rw [h3]; exact hkey1
        exact ⟨Or.inr ⟨h1, h2, Or.inl this⟩, Or.inr ⟨h1, h2, Or.inl this⟩⟩
    by_cases hbreak : hasKey t1 nx = true
    · rw [if_pos hbreak] at h
      have ht' : t' = t1 := by simpa using h.symm
      subst ht'
      refine ⟨⟨hnodup1, hone1, ?_⟩, ⟨[(n, nx)], ht1⟩, hkey1⟩
      intro kv hkv
      rw [ht1] at hkv
      rcases List.mem_append.mp hkv with hold | hnew
      · exact (hentries kv hold).1
      · have hkv' : kv = (n, nx) := by simpa using hnew
        subst hkv'
        exact Or.inr ⟨hn, rfl, Or.inl hbreak⟩
    · have hbreak' : hasKey t1 nx = false := by simpa using hbreak
      rw [if_neg hbreak] at h
      have hW1 : TreeWFx t1 nx := by
        refine ⟨hnodup1, hone1, ?_⟩
        intro kv hkv
        rw [ht1] at hkv
        rcases List.mem_append.mp hkv with hold | hnew
        · exact (hentries kv hold).2
        · have hkv' : kv = (n, nx) := by simpa using hnew
          subst hkv'
          exact Or.inr ⟨hn, rfl, Or.inr rfl⟩
      have hnx1 : 1 < nx := by
        have hge : 1 ≤ nx := collatzNext_pos hn
        rcases eq_or_lt_of_le hge with heq | hlt1
        · exfalso
          have hk1 : hasKey t1 1 = true := hasKey_iff.mpr ⟨4, hone1⟩
          rw [heq] at hk1
          rw [hk1] at hbreak'
          exact Bool.noConfusion hbreak'
        · exact hlt1
      obtain ⟨hWf, ⟨e, he⟩, hkn⟩ := ih t1 nx t' hW1 hnx1 hbreak' h
      refine ⟨hWf, ⟨[(n, nx)] ++ e, by rw [he, ht1, List.append_assoc]⟩, ?_⟩
      rw [he]
      exact hasKey_append_left hkey1

theorem add_spec {s s' : CollatzTree} {n : Int} {fuel : Nat}
    (hW : WF s) (h : add s n fuel = some s') :
    WF s' ∧ s'.paths = s.paths ∧ (∃ e, s'.collatz_tree = s.collatz_tree ++ e) ∧
      (1 ≤ n → hasKey s'.collatz_tree n = true) := by
  rw [add] at h
  by_cases hk : hasKey s.collatz_tree n = true
  · rw [if_pos hk] at h
    have hs : s' = s := by simpa using h.symm
    subst hs
    exact ⟨hW, rfl, ⟨[], by simp⟩, fun _ => hk⟩
  · have hk' : hasKey s.collatz_tree n = false := by simpa using hk
    rw [if_neg hk] at h
    rcases Option.map_eq_some'.mp h with ⟨t', ht', hs⟩
    by_cases hn : 1 < n
    · obtain ⟨hWt, ⟨e, he⟩, hkey⟩ :=
        addLoop_spec fuel s.collatz_tree n t' (treeWFx_weaken hW.1 n) hn hk' ht'
      subst hs
      exact ⟨⟨hWt, hW.2⟩, rfl, ⟨e, he⟩, fun _ => hkey⟩
    · rw [addLoop.eq_def, if_neg hn] at ht'
      have ht'' : t' = s.collatz_tree := by simpa using ht'.symm
      subst ht''
      subst hs
      have hn1 : ¬(1 ≤ n) := by
        intro hge
        have : n = 1 := by omega
        subst this
        rw [treeWF_hasKey_one hW.1] at hk'
        exact Bool.noConfusion hk'
      exact ⟨⟨hW.1, hW.2⟩, rfl, ⟨[], by simp⟩, fun hge => absurd hge hn1⟩

/-! ### The backfill loop restores the sequence-map invariant -/

theorem backfill_spec :
    ∀ (l : List Int) (m : List (Int × List Int)),
      PathsWFx m l → (l = [] ∨ ∃ x, CollatzChain x l) →
      PathsWF (backfill m l) ∧ (∃ e, backfill m l = m ++ e) ∧
        (∀ x0 rest0, l = x0 :: rest0 → dlookup (backfill m l) x0 = some l) := by
  intro l
  induction l with
  | nil =>
    intro m hW _
    exact ⟨hW, ⟨[], by simp [backfill]⟩, fun x0 rest0 h => by simp at h⟩
  | cons x rest ih =>
    intro m hW hl
    have hchain : CollatzChain x (x :: rest) := by
      rcases hl with h | ⟨x', hx'⟩
      · exact absurd h (by simp)
      · have hh := chain_head hx'
        simp only [List.head?_cons, Option.some.injEq] at hh
        rwa [← hh] at hx'
    have hxpos : 1 ≤ x := chain_pos hchain
    by_cases hk : hasKey m x = true
    · -- the first element already has a memoized path: stop, and the
      -- stored path is forced (chains are unique) to be exactly `x :: rest`
      rw [backfill, if_pos hk]
      rcases hasKey_iff.mp hk with ⟨q, hq⟩
      have hqchain : CollatzChain x q :=
        entry_chain hW (Or.inr ⟨x, hchain⟩) x q (dlookup_mem hq) hxpos
      have hqeq : q = x :: rest := chain_det hqchain hchain
      subst hqeq
      refine ⟨⟨hW.1, hW.2.1, ?_⟩, ⟨[], by simp⟩, fun x0 rest0 h0 => by
        simp only [List.cons.injEq] at h0
        rw [← h0.1]
        exact hq⟩
      intro kv hkv
      obtain ⟨k, p⟩ := kv
      have hE : (k < 1 ∧ p = [k]) ∨ (k = 1 ∧ p = [1]) ∨
          (1 < k ∧ p.head? = some k ∧
            (dlookup m (collatzNext k) = some p.tail ∨
              ((x :: rest).head? = some (collatzNext k) ∧ p.tail = x :: rest))) :=
        hW.2.2 _ hkv
      rcases hE with h1 | h1 | ⟨h1, h2, h3 | h3⟩
      · exact Or.inl h1
      · exact Or.inr (Or.inl h1)
      · exact Or.inr (Or.inr ⟨h1, h2, Or.inl h3⟩)
      · refine Or.inr (Or.inr ⟨h1, h2, Or.inl ?_⟩)
        have hx : collatzNext k = x := by simpa using h3.1.symm
        rw [hx, hq, h3.2]
    · -- the first element is new: memoize the whole suffix and recurse
      have hk' : hasKey m x = false := by simpa using hk
      rw [backfill, if_neg hk, dictInsert_new hk']
      have hx1 : x ≠ 1 := by
        intro h1
        rw [h1, pathsWF_hasKey_one hW] at hk'
        exact Bool.noConfusion hk'
      have hxgt : 1 < x := by
        cases hchain with
        | base => exact absurd rfl hx1
        | step h _ => exact h
      have hrest : CollatzChain (collatzNext x) rest := by
        cases hchain with
        | base => exact absurd rfl hx1
        | step _ hp => exact hp
      have hresthead : rest.head? = some (collatzNext x) := chain_head hrest
      set m1 := m ++ [(x, x :: rest)] with hm1
      have hlkx : dlookup m1 x = some (x :: rest) := dlookup_append_self hk'
      have hW1 : PathsWFx m1 rest := by
        refine ⟨keysNodup_append hW.1 hk', ?_, ?_⟩
        · rw [hm1, dlookup_append_left (pathsWF_hasKey_one hW)]
          exact hW.2.1
        · intro kv hkv
          rw [hm1] at hkv
          rcases List.mem_append.mp hkv with hold | hnew
          · obtain ⟨k, p⟩ := kv
            have hE : (k < 1 ∧ p = [k]) ∨ (k = 1 ∧ p = [1]) ∨
                (1 < k ∧ p.head? = some k ∧
                  (dlookup m (collatzNext k) = some p.tail ∨
                    ((x :: rest).head? = some (collatzNext k) ∧ p.tail = x :: rest))) :=
              hW.2.2 _ hold
            rcases hE with h1 | h1 | ⟨h1, h2, h3 | h3⟩
            · exact Or.inl h1
            · exact Or.inr (Or.inl h1)
            · refine Or.inr (Or.inr ⟨h1, h2, Or.inl ?_⟩)
              rw [hm1, dlookup_append_left (hasKey_iff.mpr ⟨_, h3⟩)]
              exact h3
            · refine Or.inr (Or.inr ⟨h1, h2, Or.inl ?_⟩)
              have hx : collatzNext k = x := by simpa using h3.1.symm
              rw [hx, hlkx, h3.2]
          · have hkv' : kv = (x, x :: rest) := by simpa using hnew
            subst hkv'
            exact Or.inr (Or.inr ⟨hxgt, by simp, Or.inr ⟨hresthead, by simp⟩⟩)
      obtain ⟨hWf, ⟨e, he⟩, hres⟩ := ih m1 hW1 (by
        cases rest with
        | nil => exact Or.inl rfl
        | cons a r => exact Or.inr ⟨collatzNext x, hrest⟩)
      refine ⟨hWf, ⟨[(x, x :: rest)] ++ e, by rw [he, hm1, List.append_assoc]⟩, ?_⟩
      intro x0 rest0 h0
      simp only [List.cons.injEq] at h0
      rw [← h0.1]
      rw [he, dlookup_append_left (hasKey_iff.mpr ⟨_, hlkx⟩), hlkx]

/-! ### Specifications of the public operations -/

/-- The auto-registration guard `if n not in self.collatz_tree: self.add(n)`
shared by `fill_path`, `get_path` and `get_steps_to_one`. -/
theorem addGuard_spec {s s1 : CollatzTree} {n : Int} {fuel : Nat} (hW : WF s)
    (h : (if hasKey s.collatz_tree n then some s else add s n fuel) = some s1) :
    WF s1 ∧ s1.paths = s.paths ∧ (∃ e, s1.collatz_tree = s.collatz_tree ++ e) ∧
      (1 ≤ n → hasKey s1.collatz_tree n = true) := by
  by_cases hk : hasKey s.collatz_tree n = true
  · rw [if_pos hk] at h
    obtain rfl : s = s1 := by simpa using h
    exact ⟨hW, rfl, ⟨[], by simp⟩, fun _ => hk⟩
  · rw [if_neg hk] at h
    exact add_spec hW h

theorem fillPath_spec {s s' : CollatzTree} {n : Int} {fuel : Nat}
    (hW : WF s) (h : fill_path s n fuel = some s') :
    WF s' ∧ (∃ e, s'.collatz_tree = s.collatz_tree ++ e) ∧
      (∃ e, s'.paths = s.paths ++ e) ∧
      (1 ≤ n → hasKey s'.collatz_tree n = true) ∧
      (∃ p, dlookup s'.paths n = some p ∧ (1 ≤ n → CollatzChain n p) ∧
        (n < 1 → p = [n])) := by
  rw [fill_path] at h
  cases hg : (if hasKey s.collatz_tree n then some s else add s n fuel) with
  | none => rw [hg] at h; exact absurd h (by simp)
  | some s1 =>
    rw [hg] at h
    simp only at h
    obtain ⟨hW1, hp1, ⟨e1, he1⟩, hkt1⟩ := addGuard_spec hW hg
    by_cases hkp : hasKey s1.paths n = true
    · rw [if_pos hkp] at h
      obtain rfl : s1 = s' := by simpa using h
      rcases hasKey_iff.mp hkp with ⟨p, hp⟩
      refine ⟨hW1, ⟨e1, he1⟩, ⟨[], by simp [hp1]⟩, hkt1,
        ⟨p, hp, fun hge => ?_, fun hlt => pathsWF_lookup_junk hW1.2 hp hlt⟩⟩
      exact pathsWF_lookup_chain hW1.2 hp hge
    · have hkp' : hasKey s1.paths n = false := by simpa using hkp
      rw [if_neg hkp] at h
      by_cases hn : 1 < n
      · cases hwk : walkFrom s1.collatz_tree s1.paths n fuel with
        | none => rw [hwk] at h; exact absurd h (by simp)
        | some path =>
          rw [hwk] at h
          obtain rfl : { s1 with paths := backfill s1.paths path } = s' := by
            simpa using h
          have hchain : CollatzChain n path := walk_chain hW1.1 hW1.2 fuel n path hn hwk
          have hWx : PathsWFx s1.paths path := pathsWFx_weaken hW1.2 path
          obtain ⟨hWf, ⟨e2, he2⟩, hres⟩ :=
            backfill_spec path s1.paths hWx (Or.inr ⟨n, hchain⟩)
          cases path with
          | nil => exact absurd (chain_ne_nil hchain) (by simp)
          | cons a q =>
            have ha : a = n := by
              have hh := chain_head hchain
              simpa using hh
            subst ha
            refine ⟨⟨hW1.1, hWf⟩, ⟨e1, he1⟩, ⟨e2, by rw [he2, hp1]⟩, hkt1,
              ⟨a :: q, hres a q rfl, fun _ => hchain, fun hlt => absurd hlt (by omega)⟩⟩
      · -- n ≤ 1; n = 1 is impossible here since 1 always has a path
        have hn1 : n ≠ 1 := by
          intro he
          rw [he, pathsWF_hasKey_one hW1.2] at hkp'
          exact Bool.noConfusion hkp'
        have hnlt : n < 1 := by omega
        rw [walkFrom.eq_def, if_neg hn] at h
        simp only at h
        obtain rfl : { s1 with paths := backfill s1.paths [n] } = s' := by simpa using h
        rw [backfill, if_neg (by simp [hkp']), dictInsert_new hkp', backfill]
        have hWf : PathsWF (s1.paths ++ [(n, [n])]) := by
          refine ⟨keysNodup_append hW1.2.1 hkp', ?_, ?_⟩
          · rw [dlookup_append_left (pathsWF_hasKey_one hW1.2)]
            exact hW1.2.2.1
          · intro kv hkv
            rcases List.mem_append.mp hkv with hold | hnew
            · exact pEntryOK_mono_append (hW1.2.2.2 kv hold)
            · have hkv' : kv = (n, [n]) := by simpa using hnew
              subst hkv'
              exact Or.inl ⟨hnlt, rfl⟩
        refine ⟨⟨hW1.1, hWf⟩, ⟨e1, he1⟩, ⟨[(n, [n])], by rw [hp1]⟩, ?_,
          ⟨[n], dlookup_append_self hkp', fun hge => absurd hge (by omega),
            fun _ => rfl⟩⟩
        intro hge
        omega

/-! ### Unconditional append-only growth (no well-formedness needed):
every assignment in the source is guarded by a membership test, so both
dictionaries only ever grow by appending fresh entries. -/

theorem addLoop_ext :
    ∀ fuel (t : List (Int × Int)) (n : Int) (t' : List (Int × Int)),
      hasKey t n = false → addLoop t n fuel = some t' → ∃ e, t' = t ++ e := by
  intro fuel
  induction fuel with
  | zero =>
    intro t n t' hk h
    by_cases hn : 1 < n
    · rw [addLoop, if_pos hn] at h
      exact absurd h (by simp)
    · rw [addLoop, if_neg hn] at h
      obtain rfl : t = t' := by simpa using h
      exact ⟨[], by simp⟩
  | succ f ih =>
    intro t n t' hk h
    by_cases hn : 1 < n
    · rw [addLoop, if_pos hn] at h
      simp only at h
      rw [dictInsert_new hk] at h
      by_cases hb : hasKey (t ++ [(n, collatzNext n)]) (collatzNext n) = true
      · rw [if_pos hb] at h
        obtain rfl : t ++ [(n, collatzNext n)] = t' := by simpa using h
        exact ⟨[(n, collatzNext n)], rfl⟩
      · rw [if_neg hb] at h
        obtain ⟨e, he⟩ := ih _ _ _ (by simpa using hb) h
        exact ⟨[(n, collatzNext n)] ++ e, by rw [he, List.append_assoc]⟩
    · rw [addLoop, if_neg hn] at h
      obtain rfl : t = t' := by simpa using h
      exact ⟨[], by simp⟩

theorem add_ext {s s' : CollatzTree} {n : Int} {fuel : Nat}
    (h : add s n fuel = some s') :
    s'.paths = s.paths ∧ ∃ e, s'.collatz_tree = s.collatz_tree ++ e := by
  rw [add] at h
  by_cases hk : hasKey s.collatz_tree n = true
  · rw [if_pos hk] at h
    obtain rfl : s = s' := by simpa using h
    exact ⟨rfl, ⟨[], by simp⟩⟩
  · rw [if_neg hk] at h
    rcases Option.map_eq_some'.mp h with ⟨t', ht', hs⟩
    obtain ⟨e, he⟩ := addLoop_ext fuel _ _ _ (by simpa using hk) ht'
    subst hs
    exact ⟨rfl, ⟨e, he⟩⟩

theorem backfill_ext : ∀ (l : List Int) (m : List (Int × List Int)),
    ∃ e, backfill m l = m ++ e := by
  intro l
  induction l with
  | nil => intro m; exact ⟨[], by simp [backfill]⟩
  | cons x rest ih =>
    intro m
    by_cases hk : hasKey m x = true
    · rw [backfill, if_pos hk]
      exact ⟨[], by simp⟩
    · have hk' : hasKey m x = false := by simpa using hk
      rw [backfill, if_neg hk, dictInsert_new hk']
      obtain ⟨e, he⟩ := ih (m ++ [(x, x :: rest)])
      exact ⟨[(x, x :: rest)] ++ e, by rw [he, List.append_assoc]⟩

theorem addGuard_ext {s s1 : CollatzTree} {n : Int} {fuel : Nat}
    (h : (if hasKey s.collatz_tree n then some s else add s n fuel) = some s1) :
    s1.paths = s.paths ∧ ∃ e, s1.collatz_tree = s.collatz_tree ++ e := by
  by_cases hk : hasKey s.collatz_tree n = true
  · rw [if_pos hk] at h
    obtain rfl : s = s1 := by simpa using h
    exact ⟨rfl, ⟨[], by simp⟩⟩
  · rw [if_neg hk] at h
    exact add_ext h

theorem fillPath_ext {s s' : CollatzTree} {n : Int} {fuel : Nat}
    (h : fill_path s n fuel = some s') :
    (∃ e, s'.collatz_tree = s.collatz_tree ++ e) ∧
      ∃ e, s'.paths = s.paths ++ e := by
  rw [fill_path] at h
  cases hg : (if hasKey s.collatz_tree n then some s else add s n fuel) with
  | none => rw [hg] at h; exact absurd h (by simp)
  | some s1 =>
    rw [hg] at h
    simp only at h
    obtain ⟨hp1, ⟨e1, he1⟩⟩ := addGuard_ext hg
    by_cases hkp : hasKey s1.paths n = true
    · rw [if_pos hkp] at h
      obtain rfl : s1 = s' := by simpa using h
      exact ⟨⟨e1, he1⟩, ⟨[], by simp [hp1]⟩⟩
    · rw [if_neg hkp] at h
      cases hwk : walkFrom s1.collatz_tree s1.paths n fuel with
      | none => rw [hwk] at h; exact absurd h (by simp)
      | some path =>
        rw [hwk] at h
        obtain rfl : { s1 with paths := backfill s1.paths path } = s' := by
          simpa using h
        obtain ⟨e2, he2⟩ := backfill_ext path s1.paths
        exact ⟨⟨e1, he1⟩, ⟨e2, by rw [← hp1]; exact he2⟩⟩

theorem fillGuard_ext {s s2 : CollatzTree} {n : Int} {fuel : Nat}
    (h : (if hasKey s.paths n then some s else fill_path s n fuel) = some s2) :
    (∃ e, s2.collatz_tree = s.collatz_tree ++ e) ∧
      ∃ e, s2.paths = s.paths ++ e := by
  by_cases hk : hasKey s.paths n = true
  · rw [if_pos hk] at h
    obtain rfl : s = s2 := by simpa using h
    exact ⟨⟨[], by simp⟩, ⟨[], by simp⟩⟩
  · rw [if_neg hk] at h
    exact fillPath_ext h

theorem getPath_ext {s s' : CollatzTree} {n : Int} {fuel : Nat} {v : List Int}
    (h : get_path s n fuel = some (s', v)) :
    (∃ e, s'.collatz_tree = s.collatz_tree ++ e) ∧
      ∃ e, s'.paths = s.paths ++ e := by
  rw [get_path] at h
  cases hg : (if hasKey s.collatz_tree n then some s else add s n fuel) with
  | none => rw [hg] at h; exact absurd h (by simp)
  | some s1 =>
    rw [hg] at h
    simp only at h
    obtain ⟨hp1, ⟨e1, he1⟩⟩ := addGuard_ext hg
    cases hg2 : (if hasKey s1.paths n then some s1 else fill_path s1 n fuel) with
    | none => rw [hg2] at h; exact absurd h (by simp)
    | some s2 =>
      rw [hg2] at h
      simp only at h
      rcases Option.map_eq_some'.mp h with ⟨p, hp, hpair⟩
      have hs2 : s2 = s' := congrArg Prod.fst hpair
      subst hs2
      obtain ⟨⟨e2, he2⟩, ⟨e3, he3⟩⟩ := fillGuard_ext hg2
      exact ⟨⟨e1 ++ e2, by rw [he2, he1, List.append_assoc]⟩,
        ⟨e3, by rw [he3, hp1]⟩⟩

theorem fill_ext : ∀ (s : CollatzTree) (n : Int) (fuel : Nat) (s' : CollatzTree),
    fill s n fuel = some s' →
    (∃ e, s'.collatz_tree = s.collatz_tree ++ e) ∧ s'.paths = s.paths := by
  intro s n fuel
  induction s, n, fuel using fill.induct with
  | case1 s n fuel hn hg =>
    intro s' h
    have hg' : (if hasKey s.collatz_tree n then some s else add s n fuel) = none := by
      simpa using hg
    rw [fill.eq_def, if_pos hn, hg'] at h
    exact absurd h (by simp)
  | case2 s n fuel hn s1 hg ih =>
    intro s' h
    have hg' : (if hasKey s.collatz_tree n then some s else add s n fuel) = some s1 := by
      simpa using hg
    rw [fill.eq_def, if_pos hn, hg'] at h
    simp only at h
    obtain ⟨hp1, ⟨e1, he1⟩⟩ := addGuard_ext hg
    obtain ⟨⟨e2, he2⟩, hp2⟩ := ih s' h
    exact ⟨⟨e1 ++ e2, by rw [he2, he1, List.append_assoc]⟩, by rw [hp2, hp1]⟩
  | case3 s n fuel hn =>
    intro s' h
    rw [fill.eq_def, if_neg hn] at h
    obtain rfl : s = s' := by simpa using h
    exact ⟨⟨[], by simp⟩, rfl⟩

theorem fillAllLoop_ext : ∀ (keys : List Int) (s : CollatzTree) (fuel : Nat)
    (s' : CollatzTree), fillAllLoop s keys fuel = some s' →
    (∃ e, s'.collatz_tree = s.collatz_tree ++ e) ∧
      ∃ e, s'.paths = s.paths ++ e := by
  intro keys
  induction keys with
  | nil =>
    intro s fuel s' h
    obtain rfl : s = s' := by simpa [fillAllLoop] using h
    exact ⟨⟨[], by simp⟩, ⟨[], by simp⟩⟩
  | cons n rest ih =>
    intro s fuel s' h
    rw [fillAllLoop] at h
    cases hg : (if hasKey s.paths n then some s else fill_path s n fuel) with
    | none => rw [hg] at h; exact absurd h (by simp)
    | some s1 =>
      rw [hg] at h
      simp only at h
      obtain ⟨⟨e1, he1⟩, ⟨e2, he2⟩⟩ := fillGuard_ext hg
      obtain ⟨⟨e3, he3⟩, ⟨e4, he4⟩⟩ := ih s1 fuel s' h
      exact ⟨⟨e1 ++ e3, by rw [he3, he1, List.append_assoc]⟩,
        ⟨e2 ++ e4, by rw [he4, he2, List.append_assoc]⟩⟩

theorem fillAll_ext {s s' : CollatzTree} {fuel : Nat}
    (h : fill_all_paths s fuel = some s') :
    (∃ e, s'.collatz_tree = s.collatz_tree ++ e) ∧
      ∃ e, s'.paths = s.paths ++ e :=
  fillAllLoop_ext _ s fuel s' h

theorem longest_ext {s s' : CollatzTree} {fuel : Nat} {v : List Int}
    (h : get_longest_path s fuel = some (s', v)) :
    (∃ e, s'.collatz_tree = s.collatz_tree ++ e) ∧
      ∃ e, s'.paths = s.paths ++ e := by
  rw [get_longest_path] at h
  cases hf : fill_all_paths s fuel with
  | none => rw [hf] at h; exact absurd h (by simp)
  | some s1 =>
    rw [hf] at h
    simp only at h
    cases hms : (s1.paths.map (fun kv => (kv.1, kv.2.length))).mergeSort
        (fun a b => decide (b.2 ≤ a.2)) with
    | nil => rw [hms] at h; exact absurd h (by simp)
    | cons hd tl =>
      rw [hms] at h
      obtain ⟨index, len⟩ := hd
      simp only at h
      rcases Option.map_eq_some'.mp h with ⟨p, hp, hpair⟩
      have hs1 : s1 = s' := congrArg Prod.fst hpair
      subst hs1
      exact fillAll_ext hf

theorem steps_ext {s s' : CollatzTree} {n : Int} {fuel : Nat} {k : Int}
    (h : get_steps_to_one s n fuel = some (s', k)) :
    (∃ e, s'.collatz_tree = s.collatz_tree ++ e) ∧
      ∃ e, s'.paths = s.paths ++ e := by
  rw [get_steps_to_one] at h
  cases hg : (if hasKey s.collatz_tree n then some s else add s n fuel) with
  | none => rw [hg] at h; exact absurd h (by simp)
  | some s1 =>
    rw [hg] at h
    simp only at h
    obtain ⟨hp1, ⟨e1, he1⟩⟩ := addGuard_ext hg
    cases hg2 : (if hasKey s1.paths n then some s1 else fill_path s1 n fuel) with
    | none => rw [hg2] at h; exact absurd h (by simp)
    | some s2 =>
      rw [hg2] at h
      simp only at h
      rcases Option.map_eq_some'.mp h with ⟨p, hp, hpair⟩
      have hs2 : s2 = s' := congrArg Prod.fst hpair
      subst hs2
      obtain ⟨⟨e2, he2⟩, ⟨e3, he3⟩⟩ := fillGuard_ext hg2
      exact ⟨⟨e1 ++ e2, by rw [he2, he1, List.append_assoc]⟩,
        ⟨e3, by rw [he3, hp1]⟩⟩

/-! ### Well-formedness propagation through the public operations -/

theorem fillGuard_spec {s s2 : CollatzTree} {n : Int} {fuel : Nat} (hW : WF s)
    (h : (if hasKey s.paths n then some s else fill_path s n fuel) = some s2) :
    WF s2 ∧ (∃ e, s2.collatz_tree = s.collatz_tree ++ e) ∧
      (∃ e, s2.paths = s.paths ++ e) ∧
      (∃ p, dlookup s2.paths n = some p ∧ (1 ≤ n → CollatzChain n p) ∧
        (n < 1 → p = [n])) := by
  by_cases hk : hasKey s.paths n = true
  · rw [if_pos hk] at h
    obtain rfl : s = s2 := by simpa using h
    rcases hasKey_iff.mp hk with ⟨p, hp⟩
    exact ⟨hW, ⟨[], by simp⟩, ⟨[], by simp⟩,
      ⟨p, hp, fun hge => pathsWF_lookup_chain hW.2 hp hge,
        fun hlt => pathsWF_lookup_junk hW.2 hp hlt⟩⟩
  · rw [if_neg hk] at h
    obtain ⟨hW2, he1, he2, _, hp⟩ := fillPath_spec hW h
    exact ⟨hW2, he1, he2, hp⟩

theorem getPath_spec {s s' : CollatzTree} {n : Int} {fuel : Nat} {v : List Int}
    (hW : WF s) (h : get_path s n fuel = some (s', v)) :
    WF s' ∧ (∃ e, s'.collatz_tree = s.collatz_tree ++ e) ∧
      (∃ e, s'.paths = s.paths ++ e) ∧ dlookup s'.paths n = some v ∧
      (1 ≤ n → CollatzChain n v) ∧ (n < 1 → v = [n]) ∧
      (1 ≤ n → hasKey s'.collatz_tree n = true) := by
  rw [get_path] at h
  cases hg : (if hasKey s.collatz_tree n then some s else add s n fuel) with
  | none => rw [hg] at h; exact absurd h (by simp)
  | some s1 =>
    rw [hg] at h
    simp only at h
    obtain ⟨hW1, hp1, ⟨e1, he1⟩, hkt1⟩ := addGuard_spec hW hg
    cases hg2 : (if hasKey s1.paths n then some s1 else fill_path s1 n fuel) with
    | none => rw [hg2] at h; exact absurd h (by simp)
    | some s2 =>
      rw [hg2] at h
      simp only at h
      rcases Option.map_eq_some'.mp h with ⟨p, hp, hpair⟩
      have hs2 : s2 = s' := congrArg Prod.fst hpair
      have hv : p = v := congrArg Prod.snd hpair
      subst hs2
      subst hv
      obtain ⟨hW2, ⟨e2, he2⟩, ⟨e3, he3⟩, ⟨q, hq, hqc, hqj⟩⟩ := fillGuard_spec hW1 hg2
      have hqp : q = p := by
        rw [hq] at hp
        simpa using hp
      subst hqp
      refine ⟨hW2, ⟨e1 ++ e2, by rw [he2, he1, List.append_assoc]⟩,
        ⟨e3, by rw [he3, hp1]⟩, hp, hqc, hqj, ?_⟩
      intro hge
      rw [he2]
      exact hasKey_append_left (hkt1 hge)

theorem treeWF_closed {t : List (Int × Int)} (h : TreeWF t) {k : Int}
    (h1 : 1 < k) (hk : hasKey t k = true) : hasKey t (collatzNext k) = true := by
  rcases hasKey_iff.mp hk with ⟨v, hv⟩
  obtain ⟨_, hv2, hv3⟩ := treeWF_entry h hv (by omega)
  rw [hv2] at hv3
  exact hv3

theorem fill_spec : ∀ (s : CollatzTree) (n : Int) (fuel : Nat) (s' : CollatzTree),
    WF s → fill s n fuel = some s' →
    WF s' ∧ (∀ i, 1 ≤ i → i ≤ n → hasKey s'.collatz_tree i = true) := by
  intro s n fuel
  induction s, n, fuel using fill.induct with
  | case1 s n fuel hn hg =>
    intro s' hW h
    have hg' : (if hasKey s.collatz_tree n then some s else add s n fuel) = none := by
      simpa using hg
    rw [fill.eq_def, if_pos hn, hg'] at h
    exact absurd h (by simp)
  | case2 s n fuel hn s1 hg ih =>
    intro s' hW h
    have hg' : (if hasKey s.collatz_tree n then some s else add s n fuel) = some s1 := by
      simpa using hg
    rw [fill.eq_def, if_pos hn, hg'] at h
    simp only at h
    obtain ⟨hW1, hp1, ⟨e1, he1⟩, hkt1⟩ := addGuard_spec hW hg'
    obtain ⟨hW', hcov⟩ := ih s' hW1 h
    refine ⟨hW', ?_⟩
    intro i hi1 hin
    by_cases hi : i ≤ n - 1
    · exact hcov i hi1 hi
    · have hieq : i = n := by omega
      subst hieq
      obtain ⟨⟨e2, he2⟩, _⟩ := fill_ext s1 (i - 1) fuel s' h
      rw [he2]
      exact hasKey_append_left (hkt1 (by omega))
  | case3 s n fuel hn =>
    intro s' hW h
    rw [fill.eq_def, if_neg hn] at h
    obtain rfl : s = s' := by simpa using h
    refine ⟨hW, ?_⟩
    intro i hi1 hin
    have hieq : i = 1 := by omega
    subst hieq
    exact treeWF_hasKey_one hW.1

theorem add_one (s : CollatzTree) (fuel : Nat) : add s 1 fuel = some s := by
  rw [add]
  by_cases hk : hasKey s.collatz_tree 1 = true
  · rw [if_pos hk]
  · rw [if_neg hk, addLoop.eq_def, if_neg (by omega : ¬(1:Int) < 1)]
    rfl

theorem guard_eq_add {s : CollatzTree} {n : Int} {fuel : Nat} :
    (if hasKey s.collatz_tree n then some s else add s n fuel) = add s n fuel := by
  by_cases hk : hasKey s.collatz_tree n = true
  · rw [if_pos hk, add, if_pos hk]
  · rw [if_neg hk]

theorem fill_eq_registerSeq : ∀ (s : CollatzTree) (n : Int) (fuel : Nat),
    fill s n fuel = registerSeq s (descRange n) fuel := by
  intro s n fuel
  induction s, n, fuel using fill.induct with
  | case1 s n fuel hn hg =>
    have hg' : (if hasKey s.collatz_tree n then some s else add s n fuel) = none := by
      simpa using hg
    rw [fill.eq_def, if_pos hn, hg', descRange.eq_def,
      if_pos (by omega : (1:Int) ≤ n), registerSeq, ← guard_eq_add, hg']
  | case2 s n fuel hn s1 hg ih =>
    have hg' : (if hasKey s.collatz_tree n then some s else add s n fuel) = some s1 := by
      simpa using hg
    rw [fill.eq_def, if_pos hn, hg', descRange.eq_def,
      if_pos (by omega : (1:Int) ≤ n), registerSeq, ← guard_eq_add, hg']
    exact ih
  | case3 s n fuel hn =>
    rw [fill.eq_def, if_neg hn]
    by_cases h1 : 1 ≤ n
    · have hn1 : n = 1 := by omega
      subst hn1
      rw [descRange.eq_def, if_pos (by omega : (1:Int) ≤ 1), registerSeq, add_one,
        descRange.eq_def, if_neg (by omega : ¬(1:Int) ≤ 1 - 1)]
      rfl
    · rw [descRange.eq_def, if_neg h1, registerSeq]

theorem fillAllLoop_wf : ∀ (keys : List Int) (s : CollatzTree) (fuel : Nat)
    (s' : CollatzTree), WF s → fillAllLoop s keys fuel = some s' → WF s' := by
  intro keys
  induction keys with
  | nil =>
    intro s fuel s' hW h
    obtain rfl : s = s' := by simpa [fillAllLoop] using h
    exact hW
  | cons n rest ih =>
    intro s fuel s' hW h
    rw [fillAllLoop] at h
    cases hg : (if hasKey s.paths n then some s else fill_path s n fuel) with
    | none => rw [hg] at h; exact absurd h (by simp)
    | some s1 =>
      rw [hg] at h
      simp only at h
      exact ih s1 fuel s' (fillGuard_spec hW hg).1 h

theorem fillAll_wf {s s' : CollatzTree} {fuel : Nat} (hW : WF s)
    (h : fill_all_paths s fuel = some s') : WF s' :=
  fillAllLoop_wf _ s fuel s' hW h

theorem longest_wf {s s' : CollatzTree} {fuel : Nat} {v : List Int} (hW : WF s)
    (h : get_longest_path s fuel = some (s', v)) : WF s' := by
  rw [get_longest_path] at h
  cases hf : fill_all_paths s fuel with
  | none => rw [hf] at h; exact absurd h (by simp)
  | some s1 =>
    rw [hf] at h
    simp only at h
    cases hms : (s1.paths.map (fun kv => (kv.1, kv.2.length))).mergeSort
        (fun a b => decide (b.2 ≤ a.2)) with
    | nil => rw [hms] at h; exact absurd h (by simp)
    | cons hd tl =>
      rw [hms] at h
      obtain ⟨index, len⟩ := hd
      simp only at h
      rcases Option.map_eq_some'.mp h with ⟨p, hp, hpair⟩
      have hs1 : s1 = s' := congrArg Prod.fst hpair
      subst hs1
      exact fillAll_wf hW hf

theorem steps_wf {s s' : CollatzTree} {n : Int} {fuel : Nat} {k : Int} (hW : WF s)
    (h : get_steps_to_one s n fuel = some (s', k)) : WF s' := by
  rw [get_steps_to_one] at h
  cases hg : (if hasKey s.collatz_tree n then some s else add s n fuel) with
  | none => rw [hg] at h; exact absurd h (by simp)
  | some s1 =>
    rw [hg] at h
    simp only at h
    cases hg2 : (if hasKey s1.paths n then some s1 else fill_path s1 n fuel) with
    | none => rw [hg2] at h; exact absurd h (by simp)
    | some s2 =>
      rw [hg2] at h
      simp only at h
      rcases Option.map_eq_some'.mp h with ⟨p, hp, hpair⟩
      have hs2 : s2 = s' := congrArg Prod.fst hpair
      subst hs2
      exact (fillGuard_spec (addGuard_spec hW hg).1 hg2).1

/-! ### The standalone `collatz` trace is the genuine chain -/

theorem collatz_chain : ∀ (fuel : Nat) (n : Int), 1 ≤ n →
    ∀ tr, collatz n fuel = some tr → CollatzChain n tr := by
  intro fuel
  induction fuel with
  | zero =>
    intro n h1 tr h
    by_cases hn : 1 < n
    · rw [collatz, if_pos hn] at h
      exact absurd h (by simp)
    · rw [collatz, if_neg hn] at h
      obtain rfl : [n] = tr := by simpa using h
      have hn1 : n = 1 := by omega
      subst hn1
      exact CollatzChain.base
  | succ f ih =>
    intro n h1 tr h
    by_cases hn : 1 < n
    · rw [collatz, if_pos hn] at h
      rcases Option.map_eq_some'.mp h with ⟨r, hr, htr⟩
      rw [← htr]
      exact CollatzChain.step hn (ih _ (collatzNext_pos hn) _ hr)
    · rw [collatz, if_neg hn] at h
      obtain rfl : [n] = tr := by simpa using h
      have hn1 : n = 1 := by omega
      subst hn1
      exact CollatzChain.base

/-! ### Reachability preserves well-formedness -/

theorem coreStep_ext {s s' : CollatzTree} (h : CoreStep s s') :
    (∃ e, s'.collatz_tree = s.collatz_tree ++ e) ∧
      ∃ e, s'.paths = s.paths ++ e := by
  cases h with
  | add_step h =>
    obtain ⟨hp, he⟩ := add_ext h
    exact ⟨he, ⟨[], by simp [hp]⟩⟩
  | fill_step h =>
    obtain ⟨he, hp⟩ := fill_ext _ _ _ _ h
    exact ⟨he, ⟨[], by simp [hp]⟩⟩
  | fill_path_step h => exact fillPath_ext h
  | get_path_step h => exact getPath_ext h
  | fill_all_step h => exact fillAll_ext h
  | longest_step h => exact longest_ext h
  | steps_step h => exact steps_ext h

theorem coreStep_wf {s s' : CollatzTree} (hW : WF s) (h : CoreStep s s') : WF s' := by
  cases h with
  | add_step h => exact (add_spec hW h).1
  | fill_step h => exact (fill_spec _ _ _ _ hW h).1
  | fill_path_step h => exact (fillPath_spec hW h).1
  | get_path_step h => exact (getPath_spec hW h).1
  | fill_all_step h => exact fillAll_wf hW h
  | longest_step h => exact longest_wf hW h
  | steps_step h => exact steps_wf hW h

theorem wf_initTree : WF initTree := by decide

theorem reachable_wf {s : CollatzTree} (h : Reachable s) : WF s := by
  unfold Reachable at h
  induction h with
  | refl => exact wf_initTree
  | tail hsteps hstep ih => exact coreStep_wf ih hstep

/-! ### Head of the stable descending sort: maximal, and earliest among ties -/

theorem mem_first_split {α : Type} [DecidableEq α] {a : α} :
    ∀ {l : List α}, a ∈ l → ∃ p q, l = p ++ a :: q ∧ a ∉ p := by
  intro l
  induction l with
  | nil => intro h; simp at h
  | cons x xs ih =>
    intro h
    by_cases hx : x = a
    · exact ⟨[], xs, by rw [hx, List.nil_append], by simp⟩
    · have hmem : a ∈ xs := by
        rcases List.mem_cons.mp h with h1 | h2
        · exact absurd h1.symm hx
        · exact h2
      rcases ih hmem with ⟨p, q, hpq, hnp⟩
      refine ⟨x :: p, q, by rw [hpq, List.cons_append], ?_⟩
      simp only [List.mem_cons]
      rintro (h1 | h2)
      · exact hx h1.symm
      · exact hnp h2

theorem map_split {α β : Type} {g : α → β} :
    ∀ {l : List α} {A : List β} {b : β} {C : List β},
      l.map g = A ++ b :: C →
      ∃ p x q, l = p ++ x :: q ∧ p.map g = A ∧ g x = b ∧ q.map g = C := by
  intro l
  induction l with
  | nil => intro A b C h; exact absurd h (by simp)
  | cons a as ih =>
    intro A b C h
    cases A with
    | nil =>
      simp only [List.map_cons, List.nil_append, List.cons.injEq] at h
      exact ⟨[], a, as, by simp, by simp, h.1, h.2⟩
    | cons A0 As =>
      simp only [List.map_cons, List.cons_append, List.cons.injEq] at h
      rcases ih h.2 with ⟨p, x, q, h1, h2, h3, h4⟩
      exact ⟨a :: p, x, q, by rw [List.cons_append, h1], by simp [h2, h.1], h3, h4⟩

theorem longest_spec {s s' : CollatzTree} {fuel : Nat} {v : List Int} (hW : WF s)
    (h : get_longest_path s fuel = some (s', v)) :
    WF s' ∧ (∀ kv ∈ s'.paths, kv.2.length ≤ v.length) ∧
      ∃ pre kv suf, s'.paths = pre ++ kv :: suf ∧ v = kv.2 ∧
        ∀ x ∈ pre, x.2.length < v.length := by
  rw [get_longest_path] at h
  cases hf : fill_all_paths s fuel with
  | none => rw [hf] at h; exact absurd h (by simp)
  | some s1 =>
    rw [hf] at h
    simp only at h
    have hW1 : WF s1 := fillAll_wf hW hf
    cases hms : (s1.paths.map (fun kv => (kv.1, kv.2.length))).mergeSort
        (fun a b => decide (b.2 ≤ a.2)) with
    | nil => rw [hms] at h; exact absurd h (by simp)
    | cons hd tl =>
      rw [hms] at h
      obtain ⟨index, len⟩ := hd
      simp only at h
      rcases Option.map_eq_some'.mp h with ⟨p, hp, hpair⟩
      have hs1 : s1 = s' := congrArg Prod.fst hpair
      have hv : p = v := congrArg Prod.snd hpair
      subst hs1
      subst hv
      have htrans : ∀ a b c : Int × Nat, (fun a b : Int × Nat => decide (b.2 ≤ a.2)) a b = true →
          (fun a b : Int × Nat => decide (b.2 ≤ a.2)) b c = true →
          (fun a b : Int × Nat => decide (b.2 ≤ a.2)) a c = true := by
        intro a b c h1 h2
        simp only [decide_eq_true_eq] at h1 h2 ⊢
        omega
      have htot : ∀ a b : Int × Nat, ((fun a b : Int × Nat => decide (b.2 ≤ a.2)) a b ||
          (fun a b : Int × Nat => decide (b.2 ≤ a.2)) b a) = true := by
        intro a b
        simp only [Bool.or_eq_true, decide_eq_true_eq]
        omega
      have hperm := List.mergeSort_perm (s1.paths.map (fun kv => (kv.1, kv.2.length)))
        (fun a b => decide (b.2 ≤ a.2))
      have hsorted := List.sorted_mergeSort htrans htot
        (s1.paths.map (fun kv => (kv.1, kv.2.length)))
      rw [hms] at hperm hsorted
      have hhd_mem : (index, len) ∈ s1.paths.map (fun kv => (kv.1, kv.2.length)) :=
        hperm.subset (List.mem_cons_self _ _)
      have hmax : ∀ z ∈ s1.paths.map (fun kv => (kv.1, kv.2.length)), z.2 ≤ len := by
        intro z hz
        have hz' : z ∈ (index, len) :: tl := hperm.symm.subset hz
        rcases List.mem_cons.mp hz' with h1 | h2
        · rw [h1]
        · have := (List.pairwise_cons.mp hsorted).1 z h2
          simpa using this
      have hznodup : (s1.paths.map (fun kv => (kv.1, kv.2.length))).Nodup := by
        have hmapfst : (s1.paths.map (fun kv => (kv.1, kv.2.length))).map Prod.fst =
            s1.paths.map Prod.fst := by
          rw [List.map_map]
          rfl
        exact List.Nodup.of_map Prod.fst (by rw [hmapfst]; exact hW1.2.1)
      have hsortnodup : ((index, len) :: tl).Nodup := by
        rw [← hms]
        exact (List.Perm.nodup_iff (List.mergeSort_perm _ _)).mpr hznodup
      rcases mem_first_split hhd_mem with ⟨zpre, zsuf, hzsplit, hznotpre⟩
      have hstrict : ∀ x ∈ zpre, x.2 < len := by
        intro x hx
        have hxmem : x ∈ s1.paths.map (fun kv => (kv.1, kv.2.length)) := by
          rw [hzsplit]
          exact List.mem_append_left _ hx
        have hle : x.2 ≤ len := hmax x hxmem
        rcases lt_or_eq_of_le hle with hlt | heq
        · exact hlt
        · exfalso
          have hne : x ≠ (index, len) := fun he => hznotpre (he ▸ hx)
          have hsub : List.Sublist [x, (index, len)]
              (s1.paths.map (fun kv => (kv.1, kv.2.length))) := by
            rw [hzsplit]
            have hsx : List.Sublist [x] zpre := List.singleton_sublist.mpr hx
            have hsy : List.Sublist [(index, len)] ((index, len) :: zsuf) :=
              List.singleton_sublist.mpr (List.mem_cons_self _ _)
            exact List.Sublist.append hsx hsy
          have hpair2 : List.Pairwise
              (fun a b : Int × Nat => (fun a b : Int × Nat => decide (b.2 ≤ a.2)) a b = true)
              [x, (index, len)] := by
            refine List.pairwise_cons.mpr ⟨?_, List.pairwise_singleton _ _⟩
            intro y hy
            have hy' : y = (index, len) := by simpa using hy
            subst hy'
            simp only [decide_eq_true_eq]
            omega
          have hst := List.sublist_mergeSort htrans htot hpair2 hsub
          rw [hms] at hst
          cases hst with
          | cons _ h2 =>
            have hmem2 : (index, len) ∈ tl := h2.subset (by simp)
            exact (List.nodup_cons.mp hsortnodup).1 hmem2
          | cons₂ _ h2 =>
            exact hne rfl
      rcases map_split hzsplit with ⟨pre, kv0, suf, hpsplit, hpreeq, hkv0, hsufeq⟩
      obtain ⟨k0, p0⟩ := kv0
      have hk0 : k0 = index := congrArg Prod.fst hkv0
      have hp0len : p0.length = len := congrArg Prod.snd hkv0
      subst hk0
      have hmem0 : (k0, p0) ∈ s1.paths := by
        rw [hpsplit]
        exact List.mem_append_right _ (List.mem_cons_self _ _)
      have hlk0 : dlookup s1.paths k0 = some p0 :=
        dlookup_eq_of_mem_nodup hW1.2.1 hmem0
      have hpv : p = p0 := by
        rw [hlk0] at hp
        simpa using hp.symm
      subst hpv
      refine ⟨hW1, ?_, ⟨pre, (k0, p), suf, hpsplit, rfl, ?_⟩⟩
      · intro kv hkv
        have := hmax _ (List.mem_map_of_mem (fun kv => (kv.1, kv.2.length)) hkv)
        simp only at this
        omega
      · intro x hx
        have hgx : (fun kv : Int × List Int => (kv.1, kv.2.length)) x ∈ zpre := by
          rw [← hpreeq]
          exact List.mem_map_of_mem _ hx
        have := hstrict _ hgx
        simp only at this
        omega

/-! ### Auxiliary unfolding of the sequence-map invariant -/

theorem pathsWF_entry_big {m : List (Int × List Int)} (hW : PathsWF m) {k : Int}
    {p : List Int} (h : dlookup m k = some p) (hk : 1 < k) :
    ∃ S, p = k :: S ∧ dlookup m (collatzNext k) = some S := by
  have hE : (k < 1 ∧ p = [k]) ∨ (k = 1 ∧ p = [1]) ∨
      (1 < k ∧ p.head? = some k ∧
        (dlookup m (collatzNext k) = some p.tail ∨
          (([] : List Int).head? = some (collatzNext k) ∧ p.tail = []))) :=
    hW.2.2 _ (dlookup_mem h)
  rcases hE with ⟨h1, _⟩ | ⟨h1, _⟩ | ⟨h1, h2, h3 | h3⟩
  · omega
  · omega
  · cases p with
    | nil => exact absurd h2 (by simp)
    | cons a q =>
      have ha : a = k := by simpa using h2
      subst ha
      exact ⟨q, rfl, h3⟩
  · exact absurd h3.1 (by simp)

theorem longest_init : get_longest_path initTree 30 = some (initTree, [1]) := by
  rw [get_longest_path]
  rw [(by decide : fill_all_paths initTree 30 = some initTree)]
  simp only
  rw [show initTree.paths.map (fun kv => (kv.1, kv.2.length)) = [((1 : Int), 1)] from rfl]
  rw [List.mergeSort_singleton]
  rfl

/-! ### The claims -/

/-- Claim C1: splicing correctness — for `n > 1`, if `next(n)` already has a
memoized sequence `S` before `computeSequence(n)` runs, then after
computing, `getSequence(n)` returns `[n] ++ S`. -/
theorem claim_C1 {s s1 s2 : CollatzTree} {n : Int} {S v : List Int}
    {fuel fuel2 : Nat} (hW : WF s) (hn : 1 < n)
    (hS : dlookup s.paths (collatzNext n) = some S)
    (h1 : fill_path s n fuel = some s1)
    (h2 : get_path s1 n fuel2 = some (s2, v)) : v = n :: S := by
  obtain ⟨hW1, _, ⟨e, he⟩, _, ⟨p, hp, _, _⟩⟩ := fillPath_spec hW h1
  have hS1 : dlookup s1.paths (collatzNext n) = some S := by
    rw [he, dlookup_append_left (hasKey_iff.mpr ⟨S, hS⟩)]
    exact hS
  obtain ⟨S', hpS', hlk⟩ := pathsWF_entry_big hW1.2 hp hn
  have hSS : S' = S := by
    rw [hlk] at hS1
    simpa using hS1
  obtain ⟨_, _, ⟨e2, he2⟩, hv, _, _, _⟩ := getPath_spec hW1 h2
  have hv2 : dlookup s2.paths n = some p := by
    rw [he2, dlookup_append_left (hasKey_iff.mpr ⟨p, hp⟩)]
    exact hp
  have hvp : v = p := by
    rw [hv2] at hv
    simpa using hv.symm
  rw [hvp, hpS', hSS]

/-- Claim C1 witness: on a fresh cache, `next 2 = 1` already has the
memoized sequence `[1]`; after `fill_path 2`, `get_path 2` returns `[2, 1]`. -/
theorem claim_C1_witness : ([2, 1] : List Int) = 2 :: [1] :=
  @claim_C1 initTree w1State w1State 2 [1] [2, 1] 30 30 (by decide) (by decide)
    (by decide) (by decide) (by decide)

/-- Claim C2: structural sharing — in every state reachable from a fresh
cache by the public operations (excluding load), whenever a key `n > 1`
and its successor `next(n)` both have memoized sequences, the sequence of
`n` with its first element dropped equals the sequence of `next(n)`. -/
theorem claim_C2 {s : CollatzTree} {n : Int} {p q : List Int}
    (hR : Reachable s) (hn : 1 < n) (hp : dlookup s.paths n = some p)
    (hq : dlookup s.paths (collatzNext n) = some q) : p.drop 1 = q := by
  have hW := reachable_wf hR
  obtain ⟨S, hpS, hlk⟩ := pathsWF_entry_big hW.2 hp hn
  have hSq : S = q := by
    rw [hlk] at hq
    simpa using hq
  rw [hpS, hSq]
  rfl

/-- Claim C2 witness: the state after `fill_path 2` on a fresh cache is
reachable, stores `[2, 1]` at `2` and `[1]` at `next 2 = 1`. -/
theorem claim_C2_witness : ([2, 1] : List Int).drop 1 = [1] :=
  @claim_C2 w1State 2 [2, 1] [1]
    (Relation.ReflTransGen.tail Relation.ReflTransGen.refl
      (@CoreStep.fill_path_step initTree w1State 2 30 (by decide)))
    (by decide) (by decide) (by decide)

/-- Claim C3: sequence endpoints — for every `n ≥ 1`, a successful
`getSequence(n)` returns a non-empty list whose first element is `n` and
whose last element is `1`. -/
theorem claim_C3 {s s' : CollatzTree} {n : Int} {v : List Int} {fuel : Nat}
    (hW : WF s) (hn : 1 ≤ n) (h : get_path s n fuel = some (s', v)) :
    v ≠ [] ∧ v.head? = some n ∧ v.getLast? = some 1 := by
  obtain ⟨_, _, _, _, hchain, _, _⟩ := getPath_spec hW h
  have hc := hchain hn
  exact ⟨chain_ne_nil hc, chain_head hc, chain_last hc⟩

/-- Claim C3 witness: `get_path 6` on a fresh cache returns
`[6, 3, 10, 5, 16, 8, 4, 2, 1]`, which starts at 6 and ends at 1. -/
theorem claim_C3_witness : ([6, 3, 10, 5, 16, 8, 4, 2, 1] : List Int) ≠ [] ∧
    ([6, 3, 10, 5, 16, 8, 4, 2, 1] : List Int).head? = some 6 ∧
    ([6, 3, 10, 5, 16, 8, 4, 2, 1] : List Int).getLast? = some 1 :=
  @claim_C3 initTree s6State 6 [6, 3, 10, 5, 16, 8, 4, 2, 1] 30
    (by decide) (by decide) (by decide)

/-- Claim C4: cache transparency — the trace printed by the standalone
static `collatz(n)` equals the sequence `getSequence(n)` returns on any
well-formed cache (in particular one that has not seen `n`), for every
`n ≥ 1`; and concretely `collatz 6` prints `[6, 3, 10, 5, 16, 8, 4, 2, 1]`. -/
theorem claim_C4 :
    (∀ (s : CollatzTree) (n : Int) (f1 f2 : Nat) (tr : List Int)
      (s' : CollatzTree) (v : List Int), WF s → 1 ≤ n → collatz n f1 = some tr →
      get_path s n f2 = some (s', v) → tr = v) ∧
    collatz 6 30 = some [6, 3, 10, 5, 16, 8, 4, 2, 1] := by
  constructor
  · intro s n f1 f2 tr s' v hW hn htr hg
    have h1 := collatz_chain f1 n hn tr htr
    have h2 := (getPath_spec hW hg).2.2.2.2.1 hn
    exact chain_det h1 h2
  · decide

/-- Claim C4 witness: the standalone trace and the cached sequence for 6
on a fresh cache coincide. -/
theorem claim_C4_witness :
    ([6, 3, 10, 5, 16, 8, 4, 2, 1] : List Int) = [6, 3, 10, 5, 16, 8, 4, 2, 1] :=
  claim_C4.1 initTree 6 30 30 [6, 3, 10, 5, 16, 8, 4, 2, 1] s6State
    [6, 3, 10, 5, 16, 8, 4, 2, 1] (by decide) (by decide) (by decide) (by decide)

/-- Claim C5: longest-sequence correctness with tie-break — a successful
`longestSequence()` (which runs `fillAllSequences()` first) returns the
sequence of an entry of the resulting sequence map whose length is maximal
among all entries, and every entry inserted earlier is strictly shorter
(so among ties the earliest-computed entry wins). -/
theorem claim_C5 {s s' : CollatzTree} {fuel : Nat} {v : List Int} (hW : WF s)
    (h : get_longest_path s fuel = some (s', v)) :
    (∀ kv ∈ s'.paths, kv.2.length ≤ v.length) ∧
      ∃ pre kv suf, s'.paths = pre ++ kv :: suf ∧ v = kv.2 ∧
        ∀ x ∈ pre, x.2.length < v.length :=
  ⟨(longest_spec hW h).2.1, (longest_spec hW h).2.2⟩

/-- Claim C5 witness: on a fresh cache `longestSequence()` returns `[1]`,
and no entry of the sequence map is longer. -/
theorem claim_C5_witness :
    (((1 : Int), ([1] : List Int)) : Int × List Int).2.length ≤
      ([1] : List Int).length :=
  (@claim_C5 initTree initTree 30 [1] (by decide) longest_init).1
    (1, [1]) (by decide)

/-- Claim C6: idempotence — for `n ≥ 1` on a well-formed cache, a second
`register(n)` right after a successful one returns the state unchanged,
and likewise a second `computeSequence(n)`. -/
theorem claim_C6 {s : CollatzTree} {n : Int} {fuel fuel' : Nat}
    (hW : WF s) (hn : 1 ≤ n) :
    (∀ s1, add s n fuel = some s1 → add s1 n fuel' = some s1) ∧
    (∀ s2, fill_path s n fuel = some s2 → fill_path s2 n fuel' = some s2) := by
  constructor
  · intro s1 h1
    have hk := (add_spec hW h1).2.2.2 hn
    rw [add, if_pos hk]
  · intro s2 h2
    obtain ⟨_, _, _, hkt, ⟨p, hp, _, _⟩⟩ := fillPath_spec hW h2
    have hg : (if hasKey s2.collatz_tree n then some s2 else add s2 n fuel') =
        some s2 := if_pos (hkt hn)
    rw [fill_path, hg]
    simp only
    rw [if_pos (hasKey_iff.mpr ⟨p, hp⟩)]

/-- Claim C6 witness: a second `add(6)` and a second `fill_path(6)` on the
respective resulting states are no-ops. -/
theorem claim_C6_witness :
    add s6add 6 31 = some s6add ∧ fill_path s6State 6 31 = some s6State :=
  ⟨(@claim_C6 initTree 6 30 31 (by decide) (by decide)).1 s6add (by decide),
    (@claim_C6 initTree 6 30 31 (by decide) (by decide)).2 s6State (by decide)⟩

/-- Claim C7: monotonic growth — across any sequence of core operations
(excluding load), both maps only grow by appending (no key is removed and
no stored value is overwritten, since a dict assignment to an existing key
would modify it in place), existing lookups are preserved, and the number
of successor-map keys is non-decreasing. -/
theorem claim_C7 {s s' : CollatzTree} (h : Relation.ReflTransGen CoreStep s s') :
    (∃ e, s'.collatz_tree = s.collatz_tree ++ e) ∧
      (∃ e, s'.paths = s.paths ++ e) ∧
      s.collatz_tree.length ≤ s'.collatz_tree.length ∧
      (∀ k v, dlookup s.collatz_tree k = some v →
        dlookup s'.collatz_tree k = some v) ∧
      (∀ k p, dlookup s.paths k = some p → dlookup s'.paths k = some p) := by
  induction h with
  | refl =>
    exact ⟨⟨[], by simp⟩, ⟨[], by simp⟩, le_rfl, fun k v hv => hv, fun k p hp => hp⟩
  | tail hsteps hstep ih =>
    obtain ⟨⟨e1, he1⟩, ⟨e2, he2⟩, hlen, hpres1, hpres2⟩ := ih
    obtain ⟨⟨e3, he3⟩, ⟨e4, he4⟩⟩ := coreStep_ext hstep
    refine ⟨⟨e1 ++ e3, by rw [he3, he1, List.append_assoc]⟩,
      ⟨e2 ++ e4, by rw [he4, he2, List.append_assoc]⟩, ?_, ?_, ?_⟩
    · rw [he3]
      simp only [List.length_append]
      omega
    · intro k v hv
      have hmid := hpres1 k v hv
      rw [he3, dlookup_append_left (hasKey_iff.mpr ⟨v, hmid⟩)]
      exact hmid
    · intro k p hp
      have hmid := hpres2 k p hp
      rw [he4, dlookup_append_left (hasKey_iff.mpr ⟨p, hmid⟩)]
      exact hmid

/-- Claim C7 witness: after the single core step `add(6)` from a fresh
cache, the successor map has not shrunk and the seeded entry `1 -> 4` is
still looked up unchanged. -/
theorem claim_C7_witness :
    initTree.collatz_tree.length ≤ s6add.collatz_tree.length ∧
    dlookup s6add.collatz_tree 1 = some 4 :=
  ⟨(claim_C7 (Relation.ReflTransGen.tail Relation.ReflTransGen.refl
      (@CoreStep.add_step initTree s6add 6 30 (by decide)))).2.2.1,
    (claim_C7 (Relation.ReflTransGen.tail Relation.ReflTransGen.refl
      (@CoreStep.add_step initTree s6add 6 30 (by decide)))).2.2.2.1 1 4 (by decide)⟩

/-- Claim C8: ensureChain coverage — a successful `fill(upTo)` behaves as
calling `register(i)` for every `i` from `upTo` down to `1` inclusive
(register is self-guarding, and `register(1)` is unconditionally a no-op,
so this matches the source loop stopping at 2); afterwards every integer
`1..upTo` is a successor-map key, and the key set is closed under the
Collatz successor, so all intermediate chain values are keys too. -/
theorem claim_C8 {s s' : CollatzTree} {upTo : Int} {fuel : Nat}
    (hW : WF s) (h : fill s upTo fuel = some s') :
    registerSeq s (descRange upTo) fuel = some s' ∧
      (∀ i, 1 ≤ i → i ≤ upTo → hasKey s'.collatz_tree i = true) ∧
      (∀ k, 1 < k → hasKey s'.collatz_tree k = true →
        hasKey s'.collatz_tree (collatzNext k) = true) := by
  obtain ⟨hW', hcov⟩ := fill_spec s upTo fuel s' hW h
  refine ⟨?_, hcov, fun k h1 hk => treeWF_closed hW'.1 h1 hk⟩
  rw [← fill_eq_registerSeq]
  exact h

/-- Claim C8 witness: `fill 2` on a fresh cache succeeds; every integer in
`1..2` is a key afterwards, and 2's successor 1 is a key. -/
theorem claim_C8_witness :
    registerSeq initTree (descRange 2) 50 = some w2aState ∧
    hasKey w2aState.collatz_tree 2 = true ∧
    hasKey w2aState.collatz_tree 1 = true := by
  have hfill : fill initTree 2 50 = some w2aState := by
    rw [fill.eq_def, if_pos (by omega : (1 : Int) < 2)]
    rw [(by decide : (if hasKey initTree.collatz_tree 2 then some initTree
      else add initTree 2 50) = some w2aState)]
    simp only
    rw [fill.eq_def, if_neg (by omega : ¬(1 : Int) < 2 - 1)]
  have h := @claim_C8 initTree w2aState 2 50 (by decide) hfill
  exact ⟨h.1, h.2.1 2 (by omega) (by omega), h.2.1 1 (by omega) (by omega)⟩

/-- Claim C9: load on a missing blob — when the named persisted blob does
not exist, `load_list` reports a message and returns with both maps
completely unchanged, without raising a fatal error. -/
theorem claim_C9 {s : CollatzTree}
    {fs : String → Option (List (Int × Int) × List (Int × List Int))}
    {filename : String} (h : fs filename = none) :
    load_list s fs filename = (s, [filename ++ " does not exist yet."]) := by
  rw [load_list, h]

/-- Claim C9 witness: loading from an empty file system leaves the fresh
cache untouched and reports the message. -/
theorem claim_C9_witness :
    load_list initTree emptyFS "collatz_pickle" =
      (initTree, ["collatz_pickle" ++ " does not exist yet."]) :=
  @claim_C9 initTree emptyFS "collatz_pickle" rfl

/-- Claim C10: non-positive input — for `n ≤ 0` on a well-formed cache,
`getSequence(n)` terminates (with any fuel, since the walk guard fails
immediately) returning `[n]`, leaves the successor map unchanged, and
inserts `n` as a sequence-map key that is not a successor-map key and
whose sequence does not end in 1. -/
theorem claim_C10 {s : CollatzTree} {n : Int} (hW : WF s) (hn : n ≤ 0)
    (fuel : Nat) :
    (get_path s n fuel).isSome = true ∧
    ∀ s' v, get_path s n fuel = some (s', v) →
      v = [n] ∧ s'.collatz_tree = s.collatz_tree ∧ hasKey s'.paths n = true ∧
      hasKey s'.collatz_tree n = false ∧ dlookup s'.paths n = some [n] ∧
      v.getLast? ≠ some 1 := by
  have htk : hasKey s.collatz_tree n = false := by
    by_contra hc
    have := treeWF_key_pos hW.1 (by simpa using hc)
    omega
  have hadd : add s n fuel = some s := by
    rw [add, if_neg (by simp [htk]), addLoop.eq_def, if_neg (by omega : ¬1 < n)]
    rfl
  have hg1 : (if hasKey s.collatz_tree n then some s else add s n fuel) = some s := by
    rw [if_neg (by simp [htk])]
    exact hadd
  by_cases hpk : hasKey s.paths n = true
  · obtain ⟨p, hp⟩ := hasKey_iff.mp hpk
    have hpn : p = [n] := pathsWF_lookup_junk hW.2 hp (by omega)
    subst hpn
    have hget : get_path s n fuel = some (s, [n]) := by
      rw [get_path, hg1]
      simp only
      rw [if_pos hpk]
      simp only
      rw [hp]
      rfl
    refine ⟨by rw [hget]; rfl, ?_⟩
    intro s' v hsv
    rw [hget] at hsv
    obtain ⟨rfl, rfl⟩ : s = s' ∧ [n] = v := by simpa using hsv
    exact ⟨rfl, rfl, hpk, htk, hp, by simp; omega⟩
  · have hpk' : hasKey s.paths n = false := by simpa using hpk
    have hwalk : walkFrom s.collatz_tree s.paths n fuel = some [n] := by
      rw [walkFrom.eq_def, if_neg (by omega : ¬1 < n)]
    have hbf : backfill s.paths [n] = s.paths ++ [(n, [n])] := by
      rw [backfill, if_neg (by simp [hpk']), dictInsert_new hpk', backfill]
    have hfp : fill_path s n fuel =
        some { s with paths := s.paths ++ [(n, [n])] } := by
      rw [fill_path, hg1]
      simp only
      rw [if_neg hpk, hwalk]
      simp only
      rw [hbf]
    have hg2 : (if hasKey s.paths n then some s else fill_path s n fuel) =
        some { s with paths := s.paths ++ [(n, [n])] } := by
      rw [if_neg hpk]
      exact hfp
    have hlk : dlookup ({ s with paths := s.paths ++ [(n, [n])] } :
        CollatzTree).paths n = some [n] := dlookup_append_self hpk'
    have hget : get_path s n fuel =
        some ({ s with paths := s.paths ++ [(n, [n])] }, [n]) := by
      rw [get_path, hg1]
      simp only
      rw [hg2]
      simp only
      rw [hlk]
      rfl
    refine ⟨by rw [hget]; rfl, ?_⟩
    intro s' v hsv
    rw [hget] at hsv
    obtain ⟨rfl, rfl⟩ : { s with paths := s.paths ++ [(n, [n])] } = s' ∧ [n] = v := by
      simpa using hsv
    refine ⟨rfl, rfl, hasKey_iff.mpr ⟨[n], hlk⟩, htk, hlk, by simp; omega⟩

/-- Claim C10 witness: `get_path 0` on a fresh cache (with zero fuel)
returns `[0]` and stores `0` only in the sequence map. -/
theorem claim_C10_witness :
    (get_path initTree 0 0).isSome = true ∧
    hasKey zState.paths 0 = true ∧ hasKey zState.collatz_tree 0 = false :=
  ⟨(@claim_C10 initTree 0 (by decide) (by decide) 0).1,
    ((@claim_C10 initTree 0 (by decide) (by decide) 0).2 zState [0]
      (by decide)).2.2.1,
    ((@claim_C10 initTree 0 (by decide) (by decide) 0).2 zState [0]
      (by decide)).2.2.2.1⟩
